import Mathlib

set_option maxHeartbeats 1000000

namespace Soup

/-- Node types of the parsed HTML tree, following golang.org/x/net/html NodeType. -/
inductive NodeType where
  | ErrorNode
  | TextNode
  | DocumentNode
  | ElementNode
  | CommentNode
  | DoctypeNode
  | RawNode
  deriving DecidableEq, Repr

/-- An attribute of an HTML node, following golang.org/x/net/html Attribute. -/
structure Attribute where
  nspace : String
  key : String
  val : String
  deriving DecidableEq, Repr

/-- A parsed HTML node: type tag, data (tag name for elements, text for text
nodes), ordered attribute list, and ordered children (the FirstChild/NextSibling
chain of golang.org/x/net/html Node). -/
inductive HNode where
  | mk (type : NodeType) (data : String) (attr : List Attribute) (children : List HNode)

mutual

/-- Structural equality test for nodes. -/
def HNode.beq : HNode → HNode → Bool
  | .mk t d a c, .mk t' d' a' c' => t == t' && d == d' && a == a' && HNode.beqList c c'

/-- Structural equality test for lists of nodes. -/
def HNode.beqList : List HNode → List HNode → Bool
  | [], [] => true
  | x :: xs, y :: ys => HNode.beq x y && HNode.beqList xs ys
  | _, _ => false

end

mutual

theorem HNode.beq_iff : ∀ a b : HNode, (HNode.beq a b = true) ↔ a = b
  | .mk t d a c, .mk t' d' a' c' => by
    rw [HNode.beq]
    simp only [Bool.and_eq_true, beq_iff_eq, HNode.beqList_iff c c', HNode.mk.injEq]
    tauto

theorem HNode.beqList_iff : ∀ xs ys : List HNode, (HNode.beqList xs ys = true) ↔ xs = ys
  | [], [] => by simp [HNode.beqList]
  | [], _ :: _ => by simp [HNode.beqList]
  | _ :: _, [] => by simp [HNode.beqList]
  | x :: xs, y :: ys => by
    rw [HNode.beqList]
    simp only [Bool.and_eq_true, HNode.beq_iff x y, HNode.beqList_iff xs ys, List.cons.injEq]

end

instance : BEq HNode := ⟨HNode.beq⟩

instance : LawfulBEq HNode where
  eq_of_beq h := (HNode.beq_iff _ _).mp h
  rfl := (HNode.beq_iff _ _).mpr rfl

instance : DecidableEq HNode :=
  fun a b => decidable_of_iff (HNode.beq a b = true) (HNode.beq_iff a b)

/-- The Type field of a node. -/
def HNode.type : HNode → NodeType
  | .mk t _ _ _ => t

/-- The Data field of a node. -/
def HNode.data : HNode → String
  | .mk _ d _ _ => d

/-- The Attr field of a node. -/
def HNode.attr : HNode → List Attribute
  | .mk _ _ a _ => a

/-- The children of a node (its FirstChild/NextSibling chain). -/
def HNode.children : HNode → List HNode
  | .mk _ _ _ c => c

/-- The loop body of Attr: scan the attribute list for the first matching key. -/
def attrLoop : List Attribute → String → String
  | [], _ => ""
  | a :: rest, k => if a.key == k then a.val else attrLoop rest k

/-- Attr returns the attribute value or an empty string if the attribute is not
found (main.go, Attr). -/
def Attr (node : HNode) (attr : String) : String :=
  attrLoop node.attr attr

/-- Model of Go strings.Split for a one-character separator, on character lists:
splits around every occurrence of the separator, keeping empty tokens. -/
def splitChars (sep : Char) : List Char → List (List Char)
  | [] => [[]]
  | c :: cs =>
    if c = sep then [] :: splitChars sep cs
    else
      match splitChars sep cs with
      | t :: ts => (c :: t) :: ts
      | [] => [[c]]

/-- Model of Go strings.Split(s, sep) for a one-character separator. -/
def stringsSplit (s : String) (sep : Char) : List String :=
  (splitChars sep s.toList).map (fun l => String.mk l)

/-- The loop body of HasClass: find the first attribute with key class and test
its space-split tokens; later class attributes are never consulted. -/
def hasClassLoop : List Attribute → String → Bool
  | [], _ => false
  | a :: rest, className =>
    if a.key == "class" then (stringsSplit a.val ' ').contains className
    else hasClassLoop rest className

/-- HasClass returns true if the node has the given class (main.go, HasClass). -/
def HasClass (node : HNode) (className : String) : Bool :=
  hasClassLoop node.attr className

/-- Model of Go strings.Trim(s, cutset): drop leading and trailing characters
contained in the cutset. -/
def stringsTrim (s : String) (cutset : String) : String :=
  String.mk (((s.toList.dropWhile (fun c => cutset.toList.contains c)).reverse.dropWhile
    (fun c => cutset.toList.contains c)).reverse)

/-- The loop body of TextContent: return the trimmed data of the first
immediate text child, the trim cutset being space, tab, newline, newline
exactly as in the source. -/
def firstTextChildLoop : List HNode → String
  | [] => ""
  | c :: cs =>
    if c.type == NodeType.TextNode then stringsTrim c.data " \t\n\n"
    else firstTextChildLoop cs

/-- TextContent returns the text content of the node (main.go, TextContent). -/
def TextContent (node : HNode) : String :=
  if node.type == NodeType.TextNode then stringsTrim node.data " \t\n\r"
  else firstTextChildLoop node.children

/-- The match test of the by-id traversal: an element node whose id attribute
value equals the target. -/
def idMatch (id : String) (c : HNode) : Bool :=
  c.type == NodeType.ElementNode && Attr c "id" == id

/-- The match test of the by-tag traversal: an element node whose Data equals
the target tag name. -/
def tagMatch (tagName : String) (c : HNode) : Bool :=
  c.type == NodeType.ElementNode && c.data == tagName

mutual

/-- firstWithId (main.go): shallow scan of the immediate children for an
element with the given id; if recursive, then descend into element children in
order. -/
def firstWithId : HNode → String → Bool → Option HNode
  | HNode.mk _ _ _ children, id, recursive =>
    match children.find? (idMatch id) with
    | some c => some c
    | none => if recursive then firstWithIdLoop children id else none

/-- The recursive-descent loop of firstWithId: only element children are
entered. -/
def firstWithIdLoop : List HNode → String → Option HNode
  | [], _ => none
  | c :: cs, id =>
    if c.type == NodeType.ElementNode then
      match firstWithId c id true with
      | some el => some el
      | none => firstWithIdLoop cs id
    else firstWithIdLoop cs id

end

mutual

/-- firstWithClassName (main.go): shallow scan of the immediate children for a
class match; if recursive, then descend into every child in order. -/
def firstWithClassName : HNode → String → Bool → Option HNode
  | HNode.mk _ _ _ children, className, recursive =>
    match children.find? (fun c => HasClass c className) with
    | some c => some c
    | none => if recursive then firstWithClassNameLoop children className else none

/-- The recursive-descent loop of firstWithClassName: every child is entered. -/
def firstWithClassNameLoop : List HNode → String → Option HNode
  | [], _ => none
  | c :: cs, className =>
    match firstWithClassName c className true with
    | some n => some n
    | none => firstWithClassNameLoop cs className

end

mutual

/-- allWithClassName (main.go): the node itself is tested for membership; if
recursive, matches collected from each child subtree are appended in order. -/
def allWithClassName : HNode → String → Bool → List HNode
  | n@(HNode.mk _ _ _ children), className, recursive =>
    let res := if HasClass n className then [n] else []
    if recursive then res ++ allWithClassNameLoop children className else res

/-- The child loop of allWithClassName. -/
def allWithClassNameLoop : List HNode → String → List HNode
  | [], _ => []
  | c :: cs, className => allWithClassName c className true ++ allWithClassNameLoop cs className

end

mutual

/-- firstWithTag (main.go): shallow scan of the immediate children for an
element with the given tag; if recursive, then descend into every child in
order. -/
def firstWithTag : HNode → String → Bool → Option HNode
  | HNode.mk _ _ _ children, tagName, recursive =>
    match children.find? (tagMatch tagName) with
    | some c => some c
    | none => if recursive then firstWithTagLoop children tagName else none

/-- The recursive-descent loop of firstWithTag: every child is entered. -/
def firstWithTagLoop : List HNode → String → Option HNode
  | [], _ => none
  | c :: cs, tagName =>
    match firstWithTag c tagName true with
    | some n => some n
    | none => firstWithTagLoop cs tagName

end

mutual

/-- allWithTag (main.go): per child, append the child when it is a matching
element, then, when recursive, append the matches of its whole subtree; the
queried node itself is never tested. -/
def allWithTag : HNode → String → Bool → List HNode
  | HNode.mk _ _ _ children, tagName, recursive => allWithTagLoop children tagName recursive

/-- The child loop of allWithTag. -/
def allWithTagLoop : List HNode → String → Bool → List HNode
  | [], _, _ => []
  | c :: cs, tagName, recursive =>
    (if tagMatch tagName c then [c] else []) ++
      (if recursive then allWithTag c tagName true else []) ++
      allWithTagLoop cs tagName recursive

end

/-- Selector (main.go): Id takes precedence over ClassName, ClassName over Tag;
Recursive includes the node's descendants in the search. -/
structure Selector where
  Id : String
  ClassName : String
  Tag : String
  Recursive : Bool
  deriving DecidableEq, Repr

/-- SelectAll (main.go): dispatch on the first non-empty selector field. Slots
of the returned Go slice are nilable pointers, modelled as Option values: the
id branch returns a one-element slice holding nil when firstWithId finds
nothing, and an empty slice when it finds a node. -/
def SelectAll (node : HNode) (selector : Selector) : List (Option HNode) :=
  if selector.Id.length > 0 then
    match firstWithId node selector.Id selector.Recursive with
    | none => [none]
    | some _ => []
  else if selector.ClassName.length > 0 then
    (allWithClassName node selector.ClassName selector.Recursive).map some
  else if selector.Tag.length > 0 then
    (allWithTag node selector.Tag selector.Recursive).map some
  else []

/-- SelectFirst (main.go): dispatch on the first non-empty selector field. -/
def SelectFirst (node : HNode) (selector : Selector) : Option HNode :=
  if selector.Id.length > 0 then firstWithId node selector.Id selector.Recursive
  else if selector.ClassName.length > 0 then
    firstWithClassName node selector.ClassName selector.Recursive
  else if selector.Tag.length > 0 then firstWithTag node selector.Tag selector.Recursive
  else none

/-- FirstWithId (main.go): non-recursive entry point. -/
def FirstWithId (node : HNode) (id : String) : Option HNode :=
  firstWithId node id false

/-- FirstWithIdR (main.go): recursive entry point. -/
def FirstWithIdR (node : HNode) (id : String) : Option HNode :=
  firstWithId node id true

/-- FirstWithClassName (main.go): non-recursive entry point. -/
def FirstWithClassName (node : HNode) (className : String) : Option HNode :=
  firstWithClassName node className false

/-- FirstWithClassNameR (main.go): recursive entry point. -/
def FirstWithClassNameR (node : HNode) (className : String) : Option HNode :=
  firstWithClassName node className true

/-- AllWithClassName (main.go): non-recursive entry point. -/
def AllWithClassName (node : HNode) (className : String) : List HNode :=
  allWithClassName node className false

/-- AllWithClassNameR (main.go): recursive entry point. -/
def AllWithClassNameR (node : HNode) (className : String) : List HNode :=
  allWithClassName node className true

/-- FirstWithTag (main.go): non-recursive entry point. -/
def FirstWithTag (node : HNode) (tagName : String) : Option HNode :=
  firstWithTag node tagName false

/-- FirstWithTagR (main.go): recursive entry point. -/
def FirstWithTagR (node : HNode) (tagName : String) : Option HNode :=
  firstWithTag node tagName true

/-- AllWithTag (main.go): non-recursive entry point. -/
def AllWithTag (node : HNode) (tagName : String) : List HNode :=
  allWithTag node tagName false

/-- AllWithTagR (main.go): recursive entry point. -/
def AllWithTagR (node : HNode) (tagName : String) : List HNode :=
  allWithTag node tagName true

mutual

/-- The node together with all of its descendants, in document preorder: the
node first, then each child subtree fully expanded before the next sibling. -/
def descendantsAll : HNode → List HNode
  | n@(HNode.mk _ _ _ children) => n :: descendantsAllList children

/-- Preorder expansion of a sibling list. -/
def descendantsAllList : List HNode → List HNode
  | [] => []
  | c :: cs => descendantsAll c ++ descendantsAllList cs

end

/-- All strict descendants of a node, in document preorder. -/
def strictDescendants (n : HNode) : List HNode :=
  descendantsAllList n.children

mutual

/-- The flattened search order of the recursive by-id traversal: all immediate
children first, then, for each element child in order, its own search order. -/
def idScope : HNode → List HNode
  | HNode.mk _ _ _ children => children ++ idScopeLoop children

/-- Search-order expansion of a sibling list for the by-id traversal. -/
def idScopeLoop : List HNode → List HNode
  | [] => []
  | c :: cs =>
    (if c.type == NodeType.ElementNode then idScope c else []) ++ idScopeLoop cs

end

mutual

/-- The descendants of a node lying at exactly the given depth below it
(depth 0 is the node itself), in document order. -/
def nodesAtDepth : HNode → Nat → List HNode
  | n, 0 => [n]
  | HNode.mk _ _ _ children, d + 1 => nodesAtDepthList children d

/-- Depth-slice of a sibling list. -/
def nodesAtDepthList : List HNode → Nat → List HNode
  | [], _ => []
  | c :: cs, d => nodesAtDepth c d ++ nodesAtDepthList cs d

end

/-- Whether a character list contains two consecutive spaces. -/
def hasDoubledSpace : List Char → Bool
  | c1 :: c2 :: rest => (c1 == ' ' && c2 == ' ') || hasDoubledSpace (c2 :: rest)
  | _ => false

mutual

theorem firstWithId_eq_find : ∀ (n : HNode) (id : String),
    firstWithId n id true = (idScope n).find? (idMatch id)
  | HNode.mk t d a ch, id => by
    rw [firstWithId, idScope, List.find?_append]
    cases h : ch.find? (idMatch id) with
    | some c => simp [Option.or, h]
    | none => simp [Option.or, h, firstWithIdLoop_eq_find ch id]

theorem firstWithIdLoop_eq_find : ∀ (l : List HNode) (id : String),
    firstWithIdLoop l id = (idScopeLoop l).find? (idMatch id)
  | [], id => by simp [firstWithIdLoop, idScopeLoop]
  | c :: cs, id => by
    rw [firstWithIdLoop, idScopeLoop, List.find?_append]
    by_cases hc : (c.type == NodeType.ElementNode) = true
    · rw [if_pos hc, if_pos hc, firstWithId_eq_find c id]
      cases h : (idScope c).find? (idMatch id) with
      | some el => simp [Option.or, h]
      | none => simp [Option.or, h, firstWithIdLoop_eq_find cs id]
    · rw [if_neg hc, if_neg hc]
      simp [Option.or, firstWithIdLoop_eq_find cs id]

end

theorem descendantsAll_eq (n : HNode) :
    descendantsAll n = n :: descendantsAllList n.children := by
  cases n with
  | mk t d a ch => rfl

mutual

theorem allWithClassName_eq_filter : ∀ (n : HNode) (className : String),
    allWithClassName n className true =
      (descendantsAll n).filter (fun m => HasClass m className)
  | HNode.mk t d a ch, className => by
    rw [allWithClassName, descendantsAll, List.filter_cons]
    by_cases h : HasClass (HNode.mk t d a ch) className = true
    · simp [h, allWithClassNameLoop_eq_filter ch className]
    · simp [h, allWithClassNameLoop_eq_filter ch className]

theorem allWithClassNameLoop_eq_filter : ∀ (l : List HNode) (className : String),
    allWithClassNameLoop l className =
      (descendantsAllList l).filter (fun m => HasClass m className)
  | [], className => by simp [allWithClassNameLoop, descendantsAllList]
  | c :: cs, className => by
    rw [allWithClassNameLoop, descendantsAllList, List.filter_append,
      allWithClassName_eq_filter c className, allWithClassNameLoop_eq_filter cs className]

end

mutual

theorem allWithTag_eq_filter : ∀ (n : HNode) (tagName : String),
    allWithTag n tagName true = (strictDescendants n).filter (tagMatch tagName)
  | HNode.mk t d a ch, tagName => by
    rw [allWithTag, strictDescendants, allWithTagLoop_eq_filter ch tagName]
    rfl

theorem allWithTagLoop_eq_filter : ∀ (l : List HNode) (tagName : String),
    allWithTagLoop l tagName true = (descendantsAllList l).filter (tagMatch tagName)
  | [], tagName => by simp [allWithTagLoop, descendantsAllList]
  | c :: cs, tagName => by
    rw [allWithTagLoop, descendantsAllList, List.filter_append, descendantsAll_eq c,
      List.filter_cons, allWithTag_eq_filter c tagName, allWithTagLoop_eq_filter cs tagName,
      strictDescendants]
    by_cases h : tagMatch tagName c = true
    · simp [h, List.append_assoc]
    · simp [h, List.append_assoc]

end

theorem allWithTagLoop_shallow_eq_filter (tagName : String) :
    ∀ l : List HNode, allWithTagLoop l tagName false = l.filter (tagMatch tagName)
  | [] => by simp [allWithTagLoop]
  | c :: cs => by
    rw [allWithTagLoop, List.filter_cons, allWithTagLoop_shallow_eq_filter tagName cs]
    by_cases h : tagMatch tagName c = true
    · simp [h]
    · simp [h]

theorem allWithTag_shallow_eq_filter (n : HNode) (tagName : String) :
    allWithTag n tagName false = n.children.filter (tagMatch tagName) := by
  cases n with
  | mk t d a ch => rw [allWithTag, allWithTagLoop_shallow_eq_filter]; rfl

mutual

theorem sizeOf_le_of_mem_descendantsAll : ∀ {m n : HNode},
    m ∈ descendantsAll n → sizeOf m ≤ sizeOf n
  | m, HNode.mk t d a ch => by
    rw [descendantsAll]
    intro h
    rcases List.mem_cons.mp h with h1 | h2
    · subst h1; exact Nat.le_refl _
    · have := sizeOf_lt_of_mem_descendantsAllList h2
      simp only [HNode.mk.sizeOf_spec]
      omega

theorem sizeOf_lt_of_mem_descendantsAllList : ∀ {m : HNode} {l : List HNode},
    m ∈ descendantsAllList l → sizeOf m < sizeOf l
  | m, [] => by
    rw [descendantsAllList]
    intro h
    exact absurd h (List.not_mem_nil m)
  | m, c :: cs => by
    rw [descendantsAllList]
    intro h
    rcases List.mem_append.mp h with h1 | h2
    · have := sizeOf_le_of_mem_descendantsAll h1
      simp only [List.cons.sizeOf_spec]
      omega
    · have := sizeOf_lt_of_mem_descendantsAllList h2
      simp only [List.cons.sizeOf_spec]
      omega

end

theorem sizeOf_lt_of_mem_strictDescendants {m n : HNode}
    (h : m ∈ strictDescendants n) : sizeOf m < sizeOf n := by
  cases n with
  | mk t d a ch =>
    have := sizeOf_lt_of_mem_descendantsAllList (l := ch) h
    simp only [HNode.mk.sizeOf_spec]
    omega

theorem firstWithId_shallow (n : HNode) (id : String) :
    firstWithId n id false = n.children.find? (idMatch id) := by
  cases n with
  | mk t d a ch =>
    rw [firstWithId]
    cases h : ch.find? (idMatch id) <;> simp [HNode.children, h]

theorem firstWithId_eq_scope_find (n : HNode) (id : String) (r : Bool) :
    firstWithId n id r = (if r then idScope n else n.children).find? (idMatch id) := by
  cases r with
  | false => simpa using firstWithId_shallow n id
  | true => simpa using firstWithId_eq_find n id

theorem allWithClassName_shallow (n : HNode) (className : String) :
    allWithClassName n className false = if HasClass n className then [n] else [] := by
  cases n with
  | mk t d a ch => rfl

theorem string_length_pos {s : String} (h : s ≠ "") : 0 < s.length := by
  cases s with
  | mk cs =>
    cases cs with
    | nil => exact absurd rfl h
    | cons c cs => simp [String.length]

/-- Sample element carrying id x. -/
def spanIdX : HNode :=
  HNode.mk NodeType.ElementNode "span" [⟨"", "id", "x"⟩] []

/-- Sample tree whose single child is the element with id x. -/
def treeIdX : HNode :=
  HNode.mk NodeType.ElementNode "div" [] [spanIdX]

/-- C1: the spec requires the id branch of SelectAll to expose a found match in
the returned sequence; the code's nil test is inverted, so at this input the
match is found yet SelectAll returns an empty sequence. -/
theorem C1_selectAll_id_found_empty :
    idMatch "x" spanIdX = true ∧ spanIdX ∈ treeIdX.children ∧
      firstWithId treeIdX "x" false = some spanIdX ∧
      SelectAll treeIdX ⟨"x", "", "", false⟩ = [] := by
  decide

/-- Deep match under the first sibling, depth 3. -/
def c3m1 : HNode := HNode.mk NodeType.ElementNode "m1" [⟨"", "id", "i"⟩] []

/-- Shallow match under the second sibling, depth 2. -/
def c3m2 : HNode := HNode.mk NodeType.ElementNode "m2" [⟨"", "id", "i"⟩] []

/-- Tree exercising the by-id tie-break: the first sibling subtree holds the
deeper match, the second sibling subtree the shallower one. -/
def c3tree : HNode :=
  HNode.mk NodeType.ElementNode "root" []
    [HNode.mk NodeType.ElementNode "a" [] [HNode.mk NodeType.ElementNode "x" [] [c3m1]],
     HNode.mk NodeType.ElementNode "b" [] [c3m2]]

/-- C3, counterexample: the only match at the shallowest qualifying depth (2)
is c3m2, yet the recursive by-id search returns the deeper c3m1, because it
explores the first sibling subtree exhaustively before the second sibling. -/
theorem C3_counterexample :
    firstWithId c3tree "i" true = some c3m1 ∧ c3m1 ≠ c3m2 ∧
      (nodesAtDepth c3tree 1).filter (idMatch "i") = [] ∧
      (nodesAtDepth c3tree 2).filter (idMatch "i") = [c3m2] ∧
      c3m1 ∈ nodesAtDepth c3tree 3 := by
  decide

/-- C3, amended: firstWithId returns a node iff some element in the requested
scope (immediate children, or recursively the descendants reachable through
element children) has id attribute equal to the target; the node returned is
the first match in the code's search order, which scans immediate children in
document order and then each element child's own search order in turn — not
necessarily the document-order-first match at the globally shallowest depth. -/
theorem C3_firstWithId_characterization (n : HNode) (id : String) (r : Bool) :
    ((firstWithId n id r).isSome = true ↔
      ∃ m ∈ (if r then idScope n else n.children), idMatch id m = true) ∧
    firstWithId n id r = (if r then idScope n else n.children).find? (idMatch id) := by
  refine ⟨?_, firstWithId_eq_scope_find n id r⟩
  rw [firstWithId_eq_scope_find n id r]
  simp [List.find?_isSome]

/-- Element first child of the C4 tree. -/
def c4span : HNode := HNode.mk NodeType.ElementNode "span" [] []

/-- Element whose first child is an element and whose second child is text. -/
def c4tree : HNode :=
  HNode.mk NodeType.ElementNode "div" [] [c4span, HNode.mk NodeType.TextNode "Hi" [] []]

/-- C4, counterexample: TextContent scans all immediate children for the first
text child, so on an element whose first child is an element and whose second
child is the text Hi it returns Hi, not the empty string. -/
theorem C4_counterexample :
    TextContent c4tree = "Hi" ∧ TextContent c4tree ≠ "" := by
  decide

/-- C4, amended: for every element node whose first child is an element and
whose second child is a text node, TextContent returns the second child's data
trimmed with the source's child-branch cutset (space, tab, newline) — the scan
does not stop at the first non-text child, so the result is not in general the
empty string. -/
theorem C4_textContent_second_child (d : String) (a : List Attribute)
    (c1 c2 : HNode) (rest : List HNode)
    (h1 : c1.type = NodeType.ElementNode) (h2 : c2.type = NodeType.TextNode) :
    TextContent (HNode.mk NodeType.ElementNode d a (c1 :: c2 :: rest)) =
      stringsTrim c2.data " \t\n\n" := by
  cases c1 with
  | mk t1 d1 a1 ch1 =>
    cases c2 with
    | mk t2 d2 a2 ch2 =>
      simp only [HNode.type] at h1 h2
      subst h1
      subst h2
      rfl

/-- C4, witness. -/
theorem C4_witness : TextContent c4tree = stringsTrim "Hi" " \t\n\n" :=
  C4_textContent_second_child "div" [] c4span (HNode.mk NodeType.TextNode "Hi" [] [])
    [] (by decide) (by decide)

/-- Element whose single child is a text node ending in a carriage return. -/
def c5tree : HNode :=
  HNode.mk NodeType.ElementNode "div" [] [HNode.mk NodeType.TextNode "hi\r" [] []]

/-- C5: the self branch of TextContent trims space, tab, newline and carriage
return, but the child branch's cutset reads space, tab, newline, newline — a
slip for carriage return — so the text child's trailing carriage return
survives, contradicting the claim that both branches trim the same four
characters. -/
theorem C5_carriage_return_not_trimmed :
    TextContent c5tree = "hi\r" ∧ stringsTrim "hi\r" " \t\n\r" = "hi" ∧
      TextContent (HNode.mk NodeType.TextNode "hi\r" [] []) = "hi" := by
  decide

/-- C7: the recursive by-tag collection never contains the queried root and
draws only from strict descendants, while the by-class collection tests the
queried node itself — shallow mode returns exactly the node when it matches,
and recursive mode returns precisely the matching members of the preorder
listing that starts with the node itself and expands each child subtree fully
before the next sibling. -/
theorem C7_allWithTag_root_allWithClassName_self (n : HNode) (tagName className : String) :
    n ∉ allWithTag n tagName true ∧
      (∀ m ∈ allWithTag n tagName true, m ∈ strictDescendants n) ∧
      allWithClassName n className false = (if HasClass n className then [n] else []) ∧
      allWithClassName n className true =
        (descendantsAll n).filter (fun m => HasClass m className) ∧
      (descendantsAll n).head? = some n := by
  have hsub : ∀ m ∈ allWithTag n tagName true, m ∈ strictDescendants n := by
    intro m hm
    rw [allWithTag_eq_filter] at hm
    exact (List.mem_filter.mp hm).1
  refine ⟨?_, hsub, allWithClassName_shallow n className,
    allWithClassName_eq_filter n className, ?_⟩
  · intro hmem
    exact absurd (sizeOf_lt_of_mem_strictDescendants (hsub n hmem)) (Nat.lt_irrefl _)
  · rw [descendantsAll_eq]
    rfl

theorem empty_string_length : ("" : String).length = 0 := rfl

theorem firstWithId_eq_none (n : HNode) (id : String) (r : Bool)
    (h : ∀ m ∈ (if r then idScope n else n.children), idMatch id m = false) :
    firstWithId n id r = none := by
  rw [firstWithId_eq_scope_find]
  refine List.find?_eq_none.mpr ?_
  intro x hx
  simp [h x hx]

theorem allWithClassName_eq_nil (n : HNode) (className : String) (r : Bool)
    (h : ∀ m ∈ (if r then descendantsAll n else [n]), HasClass m className = false) :
    allWithClassName n className r = [] := by
  cases r with
  | false =>
    rw [allWithClassName_shallow]
    have hn := h n (by simp)
    simp [hn]
  | true =>
    rw [allWithClassName_eq_filter]
    refine List.filter_eq_nil_iff.mpr ?_
    intro m hm
    simp [h m (by simpa using hm)]

theorem allWithTag_eq_nil (n : HNode) (tagName : String) (r : Bool)
    (h : ∀ m ∈ (if r then strictDescendants n else n.children), tagMatch tagName m = false) :
    allWithTag n tagName r = [] := by
  cases r with
  | false =>
    rw [allWithTag_shallow_eq_filter]
    refine List.filter_eq_nil_iff.mpr ?_
    intro m hm
    simp [h m (by simpa using hm)]
  | true =>
    rw [allWithTag_eq_filter]
    refine List.filter_eq_nil_iff.mpr ?_
    intro m hm
    simp [h m (by simpa using hm)]

/-- C2: when a by-id selector finds no match in its scope, SelectAll returns
the one-element sequence holding the absent (nil) placeholder, while by-class
and by-tag selectors with no match in their scopes return the truly empty
sequence. -/
theorem C2_selectAll_nomatch (n : HNode) (i c t : String) (r : Bool) :
    (i ≠ "" → (∀ m ∈ (if r then idScope n else n.children), idMatch i m = false) →
      SelectAll n ⟨i, c, t, r⟩ = [none]) ∧
    (c ≠ "" → (∀ m ∈ (if r then descendantsAll n else [n]), HasClass m c = false) →
      SelectAll n ⟨"", c, t, r⟩ = []) ∧
    (t ≠ "" → (∀ m ∈ (if r then strictDescendants n else n.children), tagMatch t m = false) →
      SelectAll n ⟨"", "", t, r⟩ = []) := by
  refine ⟨fun hi hm => ?_, fun hc hm => ?_, fun ht hm => ?_⟩
  · have hlen := string_length_pos hi
    simp [SelectAll, hlen, firstWithId_eq_none n i r hm]
  · have hlen := string_length_pos hc
    simp [SelectAll, empty_string_length, hlen, allWithClassName_eq_nil n c r hm]
  · have hlen := string_length_pos ht
    simp [SelectAll, empty_string_length, hlen, allWithTag_eq_nil n t r hm]

/-- Sample tree used by concrete witness instantiations. -/
def sampleTree : HNode :=
  HNode.mk NodeType.ElementNode "div" [] [HNode.mk NodeType.ElementNode "p" [] []]

/-- C2, witness. -/
theorem C2_witness :
    SelectAll sampleTree ⟨"z", "", "", true⟩ = [none] ∧
      SelectAll sampleTree ⟨"", "z", "", true⟩ = [] ∧
      SelectAll sampleTree ⟨"", "", "z", true⟩ = [] :=
  ⟨(C2_selectAll_nomatch sampleTree "z" "" "" true).1 (by decide) (by decide),
    (C2_selectAll_nomatch sampleTree "z" "z" "" true).2.1 (by decide) (by decide),
    (C2_selectAll_nomatch sampleTree "z" "z" "z" true).2.2 (by decide) (by decide)⟩

theorem hasClassLoop_iff (c : String) : ∀ l : List Attribute,
    (hasClassLoop l c = true ↔
      ∃ a, l.find? (fun x => x.key == "class") = some a ∧ c ∈ stringsSplit a.val ' ')
  | [] => by simp [hasClassLoop]
  | a :: rest => by
    rw [hasClassLoop]
    by_cases h : (a.key == "class") = true
    · rw [if_pos h, List.find?_cons_of_pos (p := fun x => x.key == "class") rest h]
      simp [List.contains, List.elem_iff]
    · rw [if_neg h, List.find?_cons_of_neg (p := fun x => x.key == "class") rest h]
      exact hasClassLoop_iff c rest

/-- C6: HasClass holds exactly when the first attribute entry keyed class
exists and its value, split on single spaces, contains a token equal to the
target; matching is on whole tokens, so class value ab does not match target
a. -/
theorem C6_hasClass_token (n : HNode) (c : String) :
    (HasClass n c = true ↔
      ∃ a, n.attr.find? (fun x => x.key == "class") = some a ∧
        c ∈ stringsSplit a.val ' ') ∧
    HasClass (HNode.mk NodeType.ElementNode "div" [⟨"", "class", "ab"⟩] []) "a" = false :=
  ⟨hasClassLoop_iff c n.attr, by decide⟩

/-- C8: SelectAll and SelectFirst dispatch by field precedence Id, then
ClassName, then Tag - once a field is non-empty the later fields are ignored -
and an all-empty selector yields the empty or absent result. -/
theorem C8_dispatch_precedence (n : HNode) (i c t : String) (r : Bool) :
    (i ≠ "" → SelectAll n ⟨i, c, t, r⟩ = SelectAll n ⟨i, "", "", r⟩ ∧
      SelectFirst n ⟨i, c, t, r⟩ = SelectFirst n ⟨i, "", "", r⟩) ∧
    (c ≠ "" → SelectAll n ⟨"", c, t, r⟩ = SelectAll n ⟨"", c, "", r⟩ ∧
      SelectFirst n ⟨"", c, t, r⟩ = SelectFirst n ⟨"", c, "", r⟩) ∧
    SelectAll n ⟨"", "", "", r⟩ = [] ∧ SelectFirst n ⟨"", "", "", r⟩ = none := by
  refine ⟨fun hi => ?_, fun hc => ?_, ?_, ?_⟩
  · have hlen := string_length_pos hi
    exact ⟨by simp [SelectAll, hlen], by simp [SelectFirst, hlen]⟩
  · have hlen := string_length_pos hc
    exact ⟨by simp [SelectAll, empty_string_length, hlen],
      by simp [SelectFirst, empty_string_length, hlen]⟩
  · simp [SelectAll, empty_string_length]
  · simp [SelectFirst, empty_string_length]

/-- C8, witness. -/
theorem C8_witness :
    (SelectAll sampleTree ⟨"a", "b", "c", false⟩ = SelectAll sampleTree ⟨"a", "", "", false⟩ ∧
      SelectFirst sampleTree ⟨"a", "b", "c", false⟩ =
        SelectFirst sampleTree ⟨"a", "", "", false⟩) ∧
    (SelectAll sampleTree ⟨"", "b", "c", false⟩ = SelectAll sampleTree ⟨"", "b", "", false⟩ ∧
      SelectFirst sampleTree ⟨"", "b", "c", false⟩ =
        SelectFirst sampleTree ⟨"", "b", "", false⟩) :=
  ⟨(C8_dispatch_precedence sampleTree "a" "b" "c" false).1 (by decide),
    (C8_dispatch_precedence sampleTree "a" "b" "c" false).2.1 (by decide)⟩

theorem splitChars_cons_ex (sep : Char) : ∀ l : List Char,
    ∃ t ts, splitChars sep l = t :: ts
  | [] => ⟨[], [], rfl⟩
  | c :: cs => by
    rw [splitChars]
    by_cases h : c = sep
    · exact ⟨[], splitChars sep cs, by rw [if_pos h]⟩
    · obtain ⟨t, ts, hsp⟩ := splitChars_cons_ex sep cs
      exact ⟨c :: t, ts, by rw [if_neg h, hsp]⟩

mutual

theorem nil_mem_splitChars : ∀ l : List Char,
    ([] ∈ splitChars ' ' l ↔
      (l = [] ∨ l.head? = some ' ' ∨ l.getLast? = some ' ' ∨ hasDoubledSpace l = true))
  | [] => by simp [splitChars]
  | c :: cs => by
    by_cases hc : c = ' '
    · subst hc
      rw [splitChars, if_pos rfl]
      simp
    · rw [splitChars, if_neg hc]
      obtain ⟨t, ts, hsp⟩ := splitChars_cons_ex ' ' cs
      rw [hsp]
      have htail := nil_mem_splitChars_tail cs t ts hsp
      constructor
      · intro hmem
        rcases List.mem_cons.mp hmem with h1 | h2
        · exact absurd h1.symm (List.cons_ne_nil c t)
        · rcases htail.mp h2 with hl | hd
          · refine Or.inr (Or.inr (Or.inl ?_))
            cases cs with
            | nil => simp at hl
            | cons x xs => simpa using hl
          · refine Or.inr (Or.inr (Or.inr ?_))
            cases cs with
            | nil => simp [hasDoubledSpace] at hd
            | cons x xs =>
              rw [hasDoubledSpace]
              simp [hd]
      · intro hr
        rcases hr with h1 | h2 | h3 | h4
        · exact absurd h1 (List.cons_ne_nil c cs)
        · simp at h2
          exact absurd h2 hc
        · refine List.mem_cons_of_mem _ (htail.mpr (Or.inl ?_))
          cases cs with
          | nil =>
            simp at h3
            exact absurd h3 hc
          | cons x xs => simpa using h3
        · refine List.mem_cons_of_mem _ (htail.mpr (Or.inr ?_))
          cases cs with
          | nil => simp [hasDoubledSpace] at h4
          | cons x xs =>
            rw [hasDoubledSpace] at h4
            simpa [hc] using h4

theorem nil_mem_splitChars_tail : ∀ (cs t : List Char) (ts : List (List Char)),
    splitChars ' ' cs = t :: ts →
      ([] ∈ ts ↔ (cs.getLast? = some ' ' ∨ hasDoubledSpace cs = true))
  | [], t, ts => by
    rw [splitChars]
    intro h
    injection h with h1 h2
    subst h2
    simp [hasDoubledSpace]
  | x :: xs, t, ts => by
    by_cases hx : x = ' '
    · subst hx
      rw [splitChars, if_pos rfl]
      intro h
      injection h with h1 h2
      subst h2
      rw [nil_mem_splitChars xs]
      cases xs with
      | nil => simp [hasDoubledSpace]
      | cons y ys =>
        rw [hasDoubledSpace]
        simp only [List.getLast?_cons_cons, List.head?_cons]
        constructor
        · rintro (h0 | h0 | h0 | h0)
          · cases h0
          · simp at h0
            subst h0
            exact Or.inr (by simp)
          · exact Or.inl h0
          · exact Or.inr (by simp [h0])
        · rintro (h0 | h0)
          · exact Or.inr (Or.inr (Or.inl h0))
          · rcases Bool.or_eq_true_iff.mp h0 with h1 | h1
            · refine Or.inr (Or.inl ?_)
              simp at h1
              simp [h1]
            · exact Or.inr (Or.inr (Or.inr h1))
    · rw [splitChars, if_neg hx]
      obtain ⟨t', ts', hsp⟩ := splitChars_cons_ex ' ' xs
      rw [hsp]
      intro h
      injection h with h1 h2
      subst h2
      rw [nil_mem_splitChars_tail xs t' ts' hsp]
      cases xs with
      | nil =>
        rw [splitChars] at hsp
        injection hsp with e1 e2
        subst e2
        simp [hasDoubledSpace, hx]
      | cons y ys =>
        rw [hasDoubledSpace]
        simp [hx]

end

theorem string_toList_eq_nil {s : String} : s.toList = [] ↔ s = "" := by
  cases s with
  | mk data =>
    constructor
    · intro h
      have hd : data = [] := h
      subst hd
      rfl
    · intro h
      rw [h]
      rfl

theorem mem_stringsSplit_empty_iff (v : String) :
    ("" ∈ stringsSplit v ' ') ↔ [] ∈ splitChars ' ' v.toList := by
  rw [stringsSplit]
  constructor
  · intro h
    obtain ⟨l, hl, he⟩ := List.mem_map.mp h
    have hnil : l = [] := by simpa using congrArg String.data he
    rwa [hnil] at hl
  · intro h
    exact List.mem_map.mpr ⟨[], h, rfl⟩

/-- C10: on a node with no class attribute HasClass(node, "") is false; on a
node with one, it is true exactly when the first class attribute's value is
the empty string or carries a leading, trailing, or doubled space — splitting
on single spaces then yields an empty token that matches the empty target. -/
theorem C10_hasClass_empty_token (n : HNode) :
    (n.attr.find? (fun x => x.key == "class") = none → HasClass n "" = false) ∧
    (∀ a, n.attr.find? (fun x => x.key == "class") = some a →
      (HasClass n "" = true ↔
        (a.val = "" ∨ a.val.toList.head? = some ' ' ∨ a.val.toList.getLast? = some ' ' ∨
          hasDoubledSpace a.val.toList = true))) := by
  constructor
  · intro hnone
    cases hcl : HasClass n "" with
    | false => rfl
    | true =>
      obtain ⟨a, ha, _⟩ := (hasClassLoop_iff "" n.attr).mp hcl
      rw [hnone] at ha
      cases ha
  · intro a ha
    constructor
    · intro h
      obtain ⟨a', ha', hmem⟩ := (hasClassLoop_iff "" n.attr).mp h
      rw [ha] at ha'
      injection ha' with e
      subst e
      rcases (nil_mem_splitChars a.val.toList).mp
          ((mem_stringsSplit_empty_iff a.val).mp hmem) with h0 | h0 | h0 | h0
      · exact Or.inl (string_toList_eq_nil.mp h0)
      · exact Or.inr (Or.inl h0)
      · exact Or.inr (Or.inr (Or.inl h0))
      · exact Or.inr (Or.inr (Or.inr h0))
    · intro h
      refine (hasClassLoop_iff "" n.attr).mpr
        ⟨a, ha, (mem_stringsSplit_empty_iff a.val).mpr
          ((nil_mem_splitChars a.val.toList).mpr ?_)⟩
      rcases h with h0 | h0 | h0 | h0
      · exact Or.inl (string_toList_eq_nil.mpr h0)
      · exact Or.inr (Or.inl h0)
      · exact Or.inr (Or.inr (Or.inl h0))
      · exact Or.inr (Or.inr (Or.inr h0))

/-- Node without a class attribute. -/
def c10NoClass : HNode := HNode.mk NodeType.ElementNode "div" [⟨"", "id", "q"⟩] []

/-- Node whose class attribute value ends in a space. -/
def c10Trail : HNode := HNode.mk NodeType.ElementNode "div" [⟨"", "class", "a "⟩] []

/-- C10, witness. -/
theorem C10_witness : HasClass c10NoClass "" = false ∧ HasClass c10Trail "" = true :=
  ⟨(C10_hasClass_empty_token c10NoClass).1 (by decide),
    ((C10_hasClass_empty_token c10Trail).2 ⟨"", "class", "a "⟩ (by decide)).mpr
      (by decide)⟩

mutual

/-- Step-indexed evaluator of firstWithId: every call consumes one unit of
fuel, and none signals that the budget ran out before the traversal finished. -/
def firstWithIdFuel : Nat → HNode → String → Bool → Option (Option HNode)
  | 0, _, _, _ => none
  | fuel + 1, HNode.mk _ _ _ children, id, recursive =>
    match children.find? (idMatch id) with
    | some c => some (some c)
    | none => if recursive then firstWithIdFuelLoop fuel children id else some none

/-- Step-indexed evaluator of the descent loop of firstWithId. -/
def firstWithIdFuelLoop : Nat → List HNode → String → Option (Option HNode)
  | 0, _, _ => none
  | _ + 1, [], _ => some none
  | fuel + 1, c :: cs, id =>
    if c.type == NodeType.ElementNode then
      match firstWithIdFuel fuel c id true with
      | none => none
      | some (some el) => some (some el)
      | some none => firstWithIdFuelLoop fuel cs id
    else firstWithIdFuelLoop fuel cs id

end

mutual

/-- Step-indexed evaluator of firstWithClassName. -/
def firstWithClassNameFuel : Nat → HNode → String → Bool → Option (Option HNode)
  | 0, _, _, _ => none
  | fuel + 1, HNode.mk _ _ _ children, className, recursive =>
    match children.find? (fun c => HasClass c className) with
    | some c => some (some c)
    | none =>
      if recursive then firstWithClassNameFuelLoop fuel children className else some none

/-- Step-indexed evaluator of the descent loop of firstWithClassName. -/
def firstWithClassNameFuelLoop : Nat → List HNode → String → Option (Option HNode)
  | 0, _, _ => none
  | _ + 1, [], _ => some none
  | fuel + 1, c :: cs, className =>
    match firstWithClassNameFuel fuel c className true with
    | none => none
    | some (some el) => some (some el)
    | some none => firstWithClassNameFuelLoop fuel cs className

end

mutual

/-- Step-indexed evaluator of firstWithTag. -/
def firstWithTagFuel : Nat → HNode → String → Bool → Option (Option HNode)
  | 0, _, _, _ => none
  | fuel + 1, HNode.mk _ _ _ children, tagName, recursive =>
    match children.find? (tagMatch tagName) with
    | some c => some (some c)
    | none => if recursive then firstWithTagFuelLoop fuel children tagName else some none

/-- Step-indexed evaluator of the descent loop of firstWithTag. -/
def firstWithTagFuelLoop : Nat → List HNode → String → Option (Option HNode)
  | 0, _, _ => none
  | _ + 1, [], _ => some none
  | fuel + 1, c :: cs, tagName =>
    match firstWithTagFuel fuel c tagName true with
    | none => none
    | some (some el) => some (some el)
    | some none => firstWithTagFuelLoop fuel cs tagName

end

mutual

/-- Step-indexed evaluator of allWithClassName. -/
def allWithClassNameFuel : Nat → HNode → String → Bool → Option (List HNode)
  | 0, _, _, _ => none
  | fuel + 1, n@(HNode.mk _ _ _ children), className, recursive =>
    let res := if HasClass n className then [n] else []
    if recursive then
      match allWithClassNameFuelLoop fuel children className with
      | none => none
      | some rest => some (res ++ rest)
    else some res

/-- Step-indexed evaluator of the child loop of allWithClassName. -/
def allWithClassNameFuelLoop : Nat → List HNode → String → Option (List HNode)
  | 0, _, _ => none
  | _ + 1, [], _ => some []
  | fuel + 1, c :: cs, className =>
    match allWithClassNameFuel fuel c className true,
        allWithClassNameFuelLoop fuel cs className with
    | some xs, some ys => some (xs ++ ys)
    | _, _ => none

end

mutual

/-- Step-indexed evaluator of allWithTag. -/
def allWithTagFuel : Nat → HNode → String → Bool → Option (List HNode)
  | 0, _, _, _ => none
  | fuel + 1, HNode.mk _ _ _ children, tagName, recursive =>
    allWithTagFuelLoop fuel children tagName recursive

/-- Step-indexed evaluator of the child loop of allWithTag. -/
def allWithTagFuelLoop : Nat → List HNode → String → Bool → Option (List HNode)
  | 0, _, _, _ => none
  | _ + 1, [], _, _ => some []
  | fuel + 1, c :: cs, tagName, recursive =>
    match (if recursive then allWithTagFuel fuel c tagName true else some []),
        allWithTagFuelLoop fuel cs tagName recursive with
    | some mid, some rest => some ((if tagMatch tagName c then [c] else []) ++ mid ++ rest)
    | _, _ => none

end

/-- Step-indexed evaluator of the SelectAll dispatcher. -/
def SelectAllFuel (fuel : Nat) (node : HNode) (selector : Selector) :
    Option (List (Option HNode)) :=
  if selector.Id.length > 0 then
    match firstWithIdFuel fuel node selector.Id selector.Recursive with
    | none => none
    | some none => some [none]
    | some (some _) => some []
  else if selector.ClassName.length > 0 then
    (allWithClassNameFuel fuel node selector.ClassName selector.Recursive).map
      (fun l => l.map some)
  else if selector.Tag.length > 0 then
    (allWithTagFuel fuel node selector.Tag selector.Recursive).map (fun l => l.map some)
  else some []

/-- Step-indexed evaluator of the SelectFirst dispatcher. -/
def SelectFirstFuel (fuel : Nat) (node : HNode) (selector : Selector) :
    Option (Option HNode) :=
  if selector.Id.length > 0 then firstWithIdFuel fuel node selector.Id selector.Recursive
  else if selector.ClassName.length > 0 then
    firstWithClassNameFuel fuel node selector.ClassName selector.Recursive
  else if selector.Tag.length > 0 then
    firstWithTagFuel fuel node selector.Tag selector.Recursive
  else some none

mutual

theorem firstWithIdFuel_eq : ∀ (fuel : Nat) (n : HNode) (id : String) (r : Bool),
    sizeOf n ≤ fuel → firstWithIdFuel fuel n id r = some (firstWithId n id r)
  | 0, HNode.mk t d a ch, id, r => by
    intro h
    simp only [HNode.mk.sizeOf_spec] at h
    omega
  | fuel + 1, HNode.mk t d a ch, id, r => by
    intro h
    have hch : sizeOf ch ≤ fuel := by
      simp only [HNode.mk.sizeOf_spec] at h
      omega
    rw [firstWithIdFuel, firstWithId]
    cases hf : ch.find? (idMatch id) with
    | some c => simp [hf]
    | none =>
      simp only [hf]
      cases r with
      | false => rfl
      | true => simpa using firstWithIdFuelLoop_eq fuel ch id hch

theorem firstWithIdFuelLoop_eq : ∀ (fuel : Nat) (l : List HNode) (id : String),
    sizeOf l ≤ fuel → firstWithIdFuelLoop fuel l id = some (firstWithIdLoop l id)
  | 0, [], id => by
    intro h
    simp only [List.nil.sizeOf_spec] at h
    omega
  | 0, c :: cs, id => by
    intro h
    simp only [List.cons.sizeOf_spec] at h
    omega
  | fuel + 1, [], id => by
    intro h
    rfl
  | fuel + 1, c :: cs, id => by
    intro h
    have hc : sizeOf c ≤ fuel := by
      simp only [List.cons.sizeOf_spec] at h
      omega
    have hcs : sizeOf cs ≤ fuel := by
      simp only [List.cons.sizeOf_spec] at h
      omega
    rw [firstWithIdFuelLoop, firstWithIdLoop]
    by_cases he : (c.type == NodeType.ElementNode) = true
    · rw [if_pos he, if_pos he, firstWithIdFuel_eq fuel c id true hc]
      cases firstWithId c id true with
      | some el => rfl
      | none => exact firstWithIdFuelLoop_eq fuel cs id hcs
    · rw [if_neg he, if_neg he]
      exact firstWithIdFuelLoop_eq fuel cs id hcs

end

mutual

theorem firstWithClassNameFuel_eq : ∀ (fuel : Nat) (n : HNode) (className : String) (r : Bool),
    sizeOf n ≤ fuel →
      firstWithClassNameFuel fuel n className r = some (firstWithClassName n className r)
  | 0, HNode.mk t d a ch, className, r => by
    intro h
    simp only [HNode.mk.sizeOf_spec] at h
    omega
  | fuel + 1, HNode.mk t d a ch, className, r => by
    intro h
    have hch : sizeOf ch ≤ fuel := by
      simp only [HNode.mk.sizeOf_spec] at h
      omega
    rw [firstWithClassNameFuel, firstWithClassName]
    cases hf : ch.find? (fun c => HasClass c className) with
    | some c => simp [hf]
    | none =>
      simp only [hf]
      cases r with
      | false => rfl
      | true => simpa using firstWithClassNameFuelLoop_eq fuel ch className hch

theorem firstWithClassNameFuelLoop_eq : ∀ (fuel : Nat) (l : List HNode) (className : String),
    sizeOf l ≤ fuel →
      firstWithClassNameFuelLoop fuel l className = some (firstWithClassNameLoop l className)
  | 0, [], className => by
    intro h
    simp only [List.nil.sizeOf_spec] at h
    omega
  | 0, c :: cs, className => by
    intro h
    simp only [List.cons.sizeOf_spec] at h
    omega
  | fuel + 1, [], className => by
    intro h
    rfl
  | fuel + 1, c :: cs, className => by
    intro h
    have hc : sizeOf c ≤ fuel := by
      simp only [List.cons.sizeOf_spec] at h
      omega
    have hcs : sizeOf cs ≤ fuel := by
      simp only [List.cons.sizeOf_spec] at h
      omega
    rw [firstWithClassNameFuelLoop, firstWithClassNameLoop,
      firstWithClassNameFuel_eq fuel c className true hc]
    cases firstWithClassName c className true with
    | some el => rfl
    | none => exact firstWithClassNameFuelLoop_eq fuel cs className hcs

end

mutual

theorem firstWithTagFuel_eq : ∀ (fuel : Nat) (n : HNode) (tagName : String) (r : Bool),
    sizeOf n ≤ fuel → firstWithTagFuel fuel n tagName r = some (firstWithTag n tagName r)
  | 0, HNode.mk t d a ch, tagName, r => by
    intro h
    simp only [HNode.mk.sizeOf_spec] at h
    omega
  | fuel + 1, HNode.mk t d a ch, tagName, r => by
    intro h
    have hch : sizeOf ch ≤ fuel := by
      simp only [HNode.mk.sizeOf_spec] at h
      omega
    rw [firstWithTagFuel, firstWithTag]
    cases hf : ch.find? (tagMatch tagName) with
    | some c => simp [hf]
    | none =>
      simp only [hf]
      cases r with
      | false => rfl
      | true => simpa using firstWithTagFuelLoop_eq fuel ch tagName hch

theorem firstWithTagFuelLoop_eq : ∀ (fuel : Nat) (l : List HNode) (tagName : String),
    sizeOf l ≤ fuel →
      firstWithTagFuelLoop fuel l tagName = some (firstWithTagLoop l tagName)
  | 0, [], tagName => by
    intro h
    simp only [List.nil.sizeOf_spec] at h
    omega
  | 0, c :: cs, tagName => by
    intro h
    simp only [List.cons.sizeOf_spec] at h
    omega
  | fuel + 1, [], tagName => by
    intro h
    rfl
  | fuel + 1, c :: cs, tagName => by
    intro h
    have hc : sizeOf c ≤ fuel := by
      simp only [List.cons.sizeOf_spec] at h
      omega
    have hcs : sizeOf cs ≤ fuel := by
      simp only [List.cons.sizeOf_spec] at h
      omega
    rw [firstWithTagFuelLoop, firstWithTagLoop,
      firstWithTagFuel_eq fuel c tagName true hc]
    cases firstWithTag c tagName true with
    | some el => rfl
    | none => exact firstWithTagFuelLoop_eq fuel cs tagName hcs

end

mutual

theorem allWithClassNameFuel_eq : ∀ (fuel : Nat) (n : HNode) (className : String) (r : Bool),
    sizeOf n ≤ fuel →
      allWithClassNameFuel fuel n className r = some (allWithClassName n className r)
  | 0, HNode.mk t d a ch, className, r => by
    intro h
    simp only [HNode.mk.sizeOf_spec] at h
    omega
  | fuel + 1, HNode.mk t d a ch, className, r => by
    intro h
    have hch : sizeOf ch ≤ fuel := by
      simp only [HNode.mk.sizeOf_spec] at h
      omega
    rw [allWithClassNameFuel, allWithClassName]
    cases r with
    | false => rfl
    | true =>
      rw [allWithClassNameFuelLoop_eq fuel ch className hch]
      rfl

theorem allWithClassNameFuelLoop_eq : ∀ (fuel : Nat) (l : List HNode) (className : String),
    sizeOf l ≤ fuel →
      allWithClassNameFuelLoop fuel l className = some (allWithClassNameLoop l className)
  | 0, [], className => by
    intro h
    simp only [List.nil.sizeOf_spec] at h
    omega
  | 0, c :: cs, className => by
    intro h
    simp only [List.cons.sizeOf_spec] at h
    omega
  | fuel + 1, [], className => by
    intro h
    rfl
  | fuel + 1, c :: cs, className => by
    intro h
    have hc : sizeOf c ≤ fuel := by
      simp only [List.cons.sizeOf_spec] at h
      omega
    have hcs : sizeOf cs ≤ fuel := by
      simp only [List.cons.sizeOf_spec] at h
      omega
    rw [allWithClassNameFuelLoop, allWithClassNameLoop,
      allWithClassNameFuel_eq fuel c className true hc,
      allWithClassNameFuelLoop_eq fuel cs className hcs]

end

mutual

theorem allWithTagFuel_eq : ∀ (fuel : Nat) (n : HNode) (tagName : String) (r : Bool),
    sizeOf n ≤ fuel → allWithTagFuel fuel n tagName r = some (allWithTag n tagName r)
  | 0, HNode.mk t d a ch, tagName, r => by
    intro h
    simp only [HNode.mk.sizeOf_spec] at h
    omega
  | fuel + 1, HNode.mk t d a ch, tagName, r => by
    intro h
    have hch : sizeOf ch ≤ fuel := by
      simp only [HNode.mk.sizeOf_spec] at h
      omega
    rw [allWithTagFuel, allWithTag]
    exact allWithTagFuelLoop_eq fuel ch tagName r hch

theorem allWithTagFuelLoop_eq : ∀ (fuel : Nat) (l : List HNode) (tagName : String) (r : Bool),
    sizeOf l ≤ fuel →
      allWithTagFuelLoop fuel l tagName r = some (allWithTagLoop l tagName r)
  | 0, [], tagName, r => by
    intro h
    simp only [List.nil.sizeOf_spec] at h
    omega
  | 0, c :: cs, tagName, r => by
    intro h
    simp only [List.cons.sizeOf_spec] at h
    omega
  | fuel + 1, [], tagName, r => by
    intro h
    rfl
  | fuel + 1, c :: cs, tagName, r => by
    intro h
    have hc : sizeOf c ≤ fuel := by
      simp only [List.cons.sizeOf_spec] at h
      omega
    have hcs : sizeOf cs ≤ fuel := by
      simp only [List.cons.sizeOf_spec] at h
      omega
    rw [allWithTagFuelLoop, allWithTagLoop,
      allWithTagFuelLoop_eq fuel cs tagName r hcs]
    cases r with
    | false => rfl
    | true =>
      rw [allWithTagFuel_eq fuel c tagName true hc]
      rfl

end

/-- C9: with any step budget at least the size of the tree, each step-indexed
traversal evaluator returns a value instead of exhausting its fuel, and that
value is the one computed by the corresponding total function: the recursion
of all five traversal families and of both dispatchers, shallow or recursive,
is bounded by the size of the finite tree. -/
theorem C9_traversals_terminate (fuel : Nat) (n : HNode) (id className tagName : String)
    (sel : Selector) (r : Bool) (h : sizeOf n ≤ fuel) :
    firstWithIdFuel fuel n id r = some (firstWithId n id r) ∧
    firstWithClassNameFuel fuel n className r = some (firstWithClassName n className r) ∧
    firstWithTagFuel fuel n tagName r = some (firstWithTag n tagName r) ∧
    allWithClassNameFuel fuel n className r = some (allWithClassName n className r) ∧
    allWithTagFuel fuel n tagName r = some (allWithTag n tagName r) ∧
    SelectAllFuel fuel n sel = some (SelectAll n sel) ∧
    SelectFirstFuel fuel n sel = some (SelectFirst n sel) := by
  refine ⟨firstWithIdFuel_eq fuel n id r h, firstWithClassNameFuel_eq fuel n className r h,
    firstWithTagFuel_eq fuel n tagName r h, allWithClassNameFuel_eq fuel n className r h,
    allWithTagFuel_eq fuel n tagName r h, ?_, ?_⟩
  · rw [SelectAllFuel, SelectAll]
    by_cases h1 : sel.Id.length > 0
    · rw [if_pos h1, if_pos h1, firstWithIdFuel_eq fuel n sel.Id sel.Recursive h]
      cases firstWithId n sel.Id sel.Recursive with
      | none => rfl
      | some x => rfl
    · rw [if_neg h1, if_neg h1]
      by_cases h2 : sel.ClassName.length > 0
      · rw [if_pos h2, if_pos h2,
          allWithClassNameFuel_eq fuel n sel.ClassName sel.Recursive h]
        rfl
      · rw [if_neg h2, if_neg h2]
        by_cases h3 : sel.Tag.length > 0
        · rw [if_pos h3, if_pos h3, allWithTagFuel_eq fuel n sel.Tag sel.Recursive h]
          rfl
        · rw [if_neg h3, if_neg h3]
  · rw [SelectFirstFuel, SelectFirst]
    by_cases h1 : sel.Id.length > 0
    · rw [if_pos h1, if_pos h1]
      exact firstWithIdFuel_eq fuel n sel.Id sel.Recursive h
    · rw [if_neg h1, if_neg h1]
      by_cases h2 : sel.ClassName.length > 0
      · rw [if_pos h2, if_pos h2]
        exact firstWithClassNameFuel_eq fuel n sel.ClassName sel.Recursive h
      · rw [if_neg h2, if_neg h2]
        by_cases h3 : sel.Tag.length > 0
        · rw [if_pos h3, if_pos h3]
          exact firstWithTagFuel_eq fuel n sel.Tag sel.Recursive h
        · rw [if_neg h3, if_neg h3]

/-- C9, witness. -/
theorem C9_witness :
    firstWithIdFuel 100000 sampleTree "q" true = some (firstWithId sampleTree "q" true) ∧
    firstWithClassNameFuel 100000 sampleTree "q" true =
      some (firstWithClassName sampleTree "q" true) ∧
    firstWithTagFuel 100000 sampleTree "q" true = some (firstWithTag sampleTree "q" true) ∧
    allWithClassNameFuel 100000 sampleTree "q" true =
      some (allWithClassName sampleTree "q" true) ∧
    allWithTagFuel 100000 sampleTree "q" true = some (allWithTag sampleTree "q" true) ∧
    SelectAllFuel 100000 sampleTree ⟨"q", "", "", true⟩ =
      some (SelectAll sampleTree ⟨"q", "", "", true⟩) ∧
    SelectFirstFuel 100000 sampleTree ⟨"q", "", "", true⟩ =
      some (SelectFirst sampleTree ⟨"q", "", "", true⟩) :=
  C9_traversals_terminate 100000 sampleTree "q" "q" "q" ⟨"q", "", "", true⟩ true (by decide)

end Soup
